import Mathlib

/-!
Verification of the `tools` repository against its specification.

The repository holds two command-line utilities:

* `atuin-history-mover/index.ts` — moves/copies/lists/counts shell-history
  records of an Atuin SQLite database, matching records by their `cwd`
  column (exact match, or recursive match via the SQL pattern
  `cwd LIKE dir || '/%'`).
* the tools indexer (`src/unnamed/part_001`) — scans a directory tree for
  `README.md` files with `name`/`purpose` front matter and renders a sorted
  Markdown table.

The embedding below models the SQLite table as a `List HistoryEntry` and the
SQL fragments used by the scripts (equality test, the `LIKE` operator with
its default ASCII-case-insensitive semantics and `%`/`_` wildcards,
`ORDER BY timestamp DESC LIMIT n`, per-row `UPDATE`/`INSERT`) as executable
Lean functions.  Path normalization (`~` expansion and `resolve`) happens in
the scripts before any query runs and is operating-system glue; the
operations here receive the already-normalized paths, exactly as the SQL
layer of the script does.
-/

namespace ToolsRepo

/-- One row of Atuin's `history` table (interface `HistoryEntry` in
`atuin-history-mover/index.ts`).  `deleted_at = none` models SQL NULL. -/
structure HistoryEntry where
  id : String
  timestamp : Int
  duration : Int
  exit : Int
  command : String
  cwd : String
  session : String
  hostname : String
  deleted_at : Option Int
deriving DecidableEq

/-- ASCII lower-casing of a single character, the folding SQLite's default
`LIKE` applies to both pattern and text ("case-insensitive for ASCII"). -/
def likeFold (c : Char) : Char :=
  if 'A' ≤ c ∧ c ≤ 'Z' then Char.ofNat (c.toNat + 32) else c

/-- `anySuffix f s` is true iff `f` holds of some suffix of `s`
(including `s` itself and `[]`). -/
def anySuffix (f : List Char → Bool) (s : List Char) : Bool :=
  f s ||
    match s with
    | [] => false
    | _ :: s' => anySuffix f s'

/-- SQLite's `LIKE` operator (no ESCAPE clause): `%` matches any sequence of
zero or more characters, `_` matches exactly one character, and every other
pattern character matches case-insensitively for ASCII.  `likeMatch p`
decides whether a text (as a character list) matches pattern `p`. -/
def likeMatch : List Char → List Char → Bool
  | [] => fun s => s.isEmpty
  | p :: ps =>
    let rest := likeMatch ps
    if p = '%' then anySuffix rest
    else fun s =>
      match s with
      | [] => false
      | c :: s' => (decide (p = '_') || (likeFold p == likeFold c)) && rest s'

/-- The directory-match predicate the mover's SQL queries apply to a `cwd`
value: non-recursive commands use `cwd = ?` (binary, case-sensitive text
equality); recursive commands use `cwd = ? OR cwd LIKE ? || '/%'`. -/
def dirMatch (recursive : Bool) (dir cwd : String) : Bool :=
  if recursive then
    decide (cwd = dir) || likeMatch (dir.data ++ ['/', '%']) cwd.data
  else
    decide (cwd = dir)

/-- `deleted_at IS NULL`: the record is not soft-deleted. -/
def isLive (e : HistoryEntry) : Bool := e.deleted_at.isNone

/-- The full row filter shared by every query of the mover:
`(cwd-match) AND deleted_at IS NULL`. -/
def histMatch (recursive : Bool) (dir : String) (e : HistoryEntry) : Bool :=
  isLive e && dirMatch recursive dir e.cwd

/-- `countHistory` (index.ts:320-345): `SELECT COUNT(*) FROM history WHERE
<match> AND deleted_at IS NULL` with the exact or recursive match. -/
def countHistory (store : List HistoryEntry) (dir : String)
    (recursive : Bool) : Nat :=
  (store.filter (histMatch recursive dir)).length

/-- Modelled from the spec (§4.1): the literal-prefix match the spec
describes for recursive operations — `cwd` equals `dir`, or `cwd` begins
with `dir ++ "/"` where every character of `dir` is compared literally.
Used only to compare the spec's words against the code's `LIKE`-based
`dirMatch`. -/
def specDirMatch (recursive : Bool) (dir cwd : String) : Bool :=
  if recursive then
    decide (cwd = dir) || (dir.data ++ ['/']).isPrefixOf cwd.data
  else
    decide (cwd = dir)

/-- Modelled from the spec (§4.1): `count` with the literal-prefix match. -/
def specCountHistory (store : List HistoryEntry) (dir : String)
    (recursive : Bool) : Nat :=
  (store.filter (fun e => isLive e && specDirMatch recursive dir e.cwd)).length

/-- JavaScript's `s.slice(n)` on strings: the characters from index `n` on
(empty when `n ≥ s.length`). -/
def strDrop (s : String) (n : Nat) : String := ⟨s.data.drop n⟩

/-- JavaScript's `s.length`. -/
def strLen (s : String) : Nat := s.data.length

/-- The remapped `cwd` computed by the recursive branch of `moveHistory`
(index.ts:147-150): `entry.cwd === fromPath ? toPath
: toPath + entry.cwd.slice(fromPath.length)`. -/
def moveNewCwd (fromPath toPath cwd : String) : String :=
  if cwd = fromPath then toPath else toPath ++ strDrop cwd (strLen fromPath)

/-- The remapped `cwd` computed by `copyHistory` (index.ts:242-245):
`options.recursive && entry.cwd !== fromPath
? toPath + entry.cwd.slice(fromPath.length) : toPath`. -/
def copyNewCwd (recursive : Bool) (fromPath toPath cwd : String) : String :=
  if recursive && !(cwd = fromPath : Bool) then
    toPath ++ strDrop cwd (strLen fromPath)
  else toPath

/-- `UPDATE history SET cwd = ? WHERE id = ?` (index.ts:142): rewrites the
`cwd` of every row carrying the given id. -/
def updateCwdById (store : List HistoryEntry) (newCwd id : String) :
    List HistoryEntry :=
  store.map fun r => if r.id = id then { r with cwd := newCwd } else r

/-- `moveHistory` (index.ts:97-185) on a store, returning the reported count
and the updated store.  The recursive branch selects the matching rows and
runs `UPDATE history SET cwd = ? WHERE id = ?` once per row; the
non-recursive branch runs the single bulk statement `UPDATE history SET
cwd = ? WHERE cwd = ? AND deleted_at IS NULL`, whose `changes` value counts
the rows satisfying the WHERE clause.  `dryRun` returns the count with no
mutation, and a zero count short-circuits. -/
def moveHistory (store : List HistoryEntry) (fromPath toPath : String)
    (dryRun recursive : Bool) : Nat × List HistoryEntry :=
  if recursive then
    let count := countHistory store fromPath true
    if count = 0 then (0, store)
    else if dryRun then (count, store)
    else
      let entries := store.filter (histMatch true fromPath)
      let store' := entries.foldl
        (fun db e => updateCwdById db (moveNewCwd fromPath toPath e.cwd) e.id)
        store
      (entries.length, store')
  else
    let count := countHistory store fromPath false
    if count = 0 then (0, store)
    else if dryRun then (count, store)
    else
      (count,
        store.map fun r =>
          if histMatch false fromPath r then { r with cwd := toPath } else r)

/-- The row built by `copyHistory`'s INSERT: all fields of the source row,
with the freshly generated id and the remapped `cwd`. -/
def mkCopy (e : HistoryEntry) (newId newCwd : String) : HistoryEntry :=
  { e with id := newId, cwd := newCwd }

/-- Whether the INSERT of a row with id `newId` succeeds.  `id` is the
primary key of Atuin's `history` table, so inserting a duplicate id throws
the constraint error that `copyHistory`'s try/catch swallows; any other
inserted value is copied from an existing row and satisfies the schema. -/
def insertOk (store : List HistoryEntry) (newId : String) : Bool :=
  !(store.any fun r => r.id = newId)

/-- The per-entry loop of `copyHistory` (index.ts:235-262).  `fresh i` is
the value `randomUUID()` returns at the i-th iteration.  A failed INSERT is
caught: the loop continues and `copied` is not incremented. -/
def copyLoop (fromPath toPath : String) (recursive : Bool)
    (fresh : Nat → String) :
    Nat → List HistoryEntry → List HistoryEntry → Nat × List HistoryEntry
  | _, store, [] => (0, store)
  | i, store, e :: rest =>
    let newE := mkCopy e (fresh i) (copyNewCwd recursive fromPath toPath e.cwd)
    if insertOk store newE.id then
      let r := copyLoop fromPath toPath recursive fresh (i + 1)
        (store ++ [newE]) rest
      (r.1 + 1, r.2)
    else
      copyLoop fromPath toPath recursive fresh (i + 1) store rest

/-- `copyHistory` (index.ts:187-266): select the matching rows, short-circuit
on zero matches, report without inserting on `dryRun`, otherwise run the
insertion loop. -/
def copyHistory (store : List HistoryEntry) (fromPath toPath : String)
    (dryRun recursive : Bool) (fresh : Nat → String) :
    Nat × List HistoryEntry :=
  let entries := store.filter (histMatch recursive fromPath)
  if entries.isEmpty then (0, store)
  else if dryRun then (entries.length, store)
  else copyLoop fromPath toPath recursive fresh 0 store entries

/-- The rows the insertion loop produces from the selected entries when
every INSERT succeeds, with `fresh` consumed from index `i` on. -/
def copyMade (fromPath toPath : String) (recursive : Bool)
    (fresh : Nat → String) : Nat → List HistoryEntry → List HistoryEntry
  | _, [] => []
  | i, e :: rest =>
    mkCopy e (fresh i) (copyNewCwd recursive fromPath toPath e.cwd) ::
      copyMade fromPath toPath recursive fresh (i + 1) rest

/-- The guarantee `randomUUID()` provides for the first `n` generated ids:
each is distinct from every id already in the store and from the other
generated ids. -/
def FreshFor (fresh : Nat → String) (store : List HistoryEntry)
    (n : Nat) : Prop :=
  (∀ j < n, ∀ e ∈ store, fresh j ≠ e.id) ∧
    (∀ j < n, ∀ k < n, j ≠ k → fresh j ≠ fresh k)

/-- `listHistory` (index.ts:268-318): `SELECT * FROM history WHERE <match>
AND deleted_at IS NULL ORDER BY timestamp DESC LIMIT ?`.  The query only
reads, so the model returns the listed rows; `ORDER BY … DESC` is realized
by a stable sort on `timestamp` descending.  The default limit of 10 is the
one `main` passes when the CLI argument is absent (index.ts:425-427). -/
def listHistory (store : List HistoryEntry) (dir : String)
    (limit : Nat := 10) (recursive : Bool := false) : List HistoryEntry :=
  ((store.filter (histMatch recursive dir)).mergeSort
      (fun a b => decide (b.timestamp ≤ a.timestamp))).take limit

/-! ## Tools indexer (src/unnamed/part_001) -/

/-- What the indexer sees of one README discovered by the
`**/README.md` glob: its path relative to `rootDir`, whether reading and
front-matter parsing succeed (the try/catch at part_001:126-148), and the
`name`/`purpose` front-matter fields when present as strings. -/
structure ReadmeFile where
  path : String
  readable : Bool
  fmName : Option String
  fmPurpose : Option String
deriving DecidableEq

/-- One discovered tool (interface `Tool` in part_001): `lang` is
`some "bun"` or `none` (modelling `"bun" | undefined`). -/
structure Tool where
  name : String
  purpose : String
  link : String
  path : String
  lang : Option String
deriving DecidableEq

/-- JavaScript truthiness of a possibly-missing front-matter string field:
`undefined` and `""` are falsy, any non-empty string is truthy. -/
def truthy : Option String → Bool
  | none => false
  | some s => !(s = "" : Bool)

/-- `String.prototype.includes`: substring containment, via prefix-of-a-suffix. -/
def strIncludes (s pat : String) : Bool :=
  anySuffix (fun t => pat.data.isPrefixOf t) s.data

/-- Node's `dirname` on the relative paths the glob yields: everything
before the last `/`, or `"."` when there is no `/`. -/
def pathDirname (p : String) : String :=
  if p.data.contains '/' then
    ⟨((p.data.reverse.dropWhile fun c => !(c = '/' : Bool)).drop 1).reverse⟩
  else "."

/-- Node's `join` as used for the `bun.lock` probe; the probe result is
supplied by the abstract `bunLock` predicate, so only the shape matters. -/
def pathJoin (a b : String) : String := a ++ "/" ++ b

/-- The tool entry pushed for a qualifying README (part_001:130-144). -/
def mkTool (rootDir : String) (bunLock : String → Bool)
    (f : ReadmeFile) : Tool :=
  let toolDir := pathDirname f.path
  { name := f.fmName.getD ""
    purpose := f.fmPurpose.getD ""
    link := "./" ++ toolDir
    path := f.path
    lang :=
      if bunLock (pathJoin (pathJoin rootDir toolDir) "bun.lock") then
        some "bun"
      else none }

/-- `scanToolsDirectory` (part_001:116-152): walk the globbed README files
in order; skip any whose path contains `"node_modules"` as a substring;
skip unreadable ones (logged); keep those whose front matter has truthy
`name` and `purpose`. -/
def scanToolsDirectory (rootDir : String) (bunLock : String → Bool) :
    List ReadmeFile → List Tool
  | [] => []
  | f :: rest =>
    if strIncludes f.path "node_modules" then
      scanToolsDirectory rootDir bunLock rest
    else if !f.readable then
      scanToolsDirectory rootDir bunLock rest
    else if truthy f.fmName && truthy f.fmPurpose then
      mkTool rootDir bunLock f :: scanToolsDirectory rootDir bunLock rest
    else
      scanToolsDirectory rootDir bunLock rest

/-- `path` contains `node_modules` as a whole path segment: the
`node_modules` characters are delimited by `/` (or by an end of the
string) on both sides. -/
def hasNMSegment (p : String) : Prop :=
  ∃ a b, p.data = a ++ "node_modules".data ++ b ∧
    (a = [] ∨ a.getLast? = some '/') ∧ (b = [] ∨ b.head? = some '/')

/-- ASCII-lower-cased character sequence of a string, the case-insensitive
sort key for names. -/
def lowerStr (s : String) : List Char := s.data.map likeFold

/-- Lexicographic `≤` on character lists (by code point). -/
def lexLe : List Char → List Char → Bool
  | [], _ => true
  | _ :: _, [] => false
  | a :: as, b :: bs => if a = b then lexLe as bs else decide (a < b)

/-- Models `a.localeCompare(b) ≤ 0` for the comparator at part_001:156 on
ASCII names: the default-locale collation orders case-insensitively at its
primary strength, i.e. by the lower-cased character sequences; its finer
case tie-breaking is not modelled (ties are left to the stable sort). -/
def jsNameCompareLe (a b : String) : Bool :=
  lexLe (lowerStr a) (lowerStr b)

/-- Handlebars' HTML escaping applied to every `{{…}}` insertion. -/
def hbEscapeChar (c : Char) : List Char :=
  if c = '&' then "&amp;".data
  else if c = '<' then "&lt;".data
  else if c = '>' then "&gt;".data
  else if c = '"' then "&quot;".data
  else if c = '\'' then "&#x27;".data
  else if c = '`' then "&#x60;".data
  else if c = '=' then "&#x3D;".data
  else [c]

/-- Handlebars' `escapeExpression` on a whole string. -/
def hbEscape (s : String) : String :=
  ⟨s.data.foldr (fun c acc => hbEscapeChar c ++ acc) []⟩

/-- One body row of the rendered table:
`| [{{name}}]({{link}}) | {{purpose}} |` plus its newline. -/
def renderRow (t : Tool) : String :=
  "| [" ++ hbEscape t.name ++ "](" ++ hbEscape t.link ++ ") | " ++
    hbEscape t.purpose ++ " |\n"

/-- The fixed part of the template before the `{{#each}}` block (the
standalone block-tag lines are stripped by Handlebars). -/
def tableHeader : String :=
  "\n# Tools\n\n| Name | Purpose |\n|------|---------|\n"

/-- The render step (part_001:156-169): sort the scanned tools with the
`localeCompare` comparator (`Array.prototype.sort` is stable), then
instantiate the table template. -/
def renderTools (tools : List Tool) : String :=
  let sorted := tools.mergeSort fun a b => jsNameCompareLe a.name b.name
  tableHeader ++ String.join (sorted.map renderRow)

/-! ## Lemmas about the LIKE model -/

theorem anySuffix_of_suffix {f : List Char → Bool} {t s : List Char}
    (hsub : t <:+ s) (hf : f t = true) : anySuffix f s = true := by
  induction s with
  | nil =>
    rw [List.suffix_nil.mp hsub] at hf
    simp [anySuffix, hf]
  | cons c s' ih =>
    rcases List.suffix_cons_iff.mp hsub with h | h
    · subst h; simp [anySuffix, hf]
    · simp [anySuffix, ih h]

theorem anySuffix_isEmpty (s : List Char) :
    anySuffix (fun t => t.isEmpty) s = true :=
  anySuffix_of_suffix List.nil_suffix rfl

theorem likeMatch_percent (s : List Char) : likeMatch ['%'] s = true := by
  simp [likeMatch, anySuffix_isEmpty]

/-- A pattern prefix consisting of ordinary characters (or even wildcards)
matches itself: if `p` matches `s`, then `u ++ p` matches `u ++ s`. -/
theorem likeMatch_prepend {p s : List Char} (u : List Char)
    (h : likeMatch p s = true) : likeMatch (u ++ p) (u ++ s) = true := by
  induction u with
  | nil => simpa using h
  | cons c u' ih =>
    by_cases hc : c = '%'
    · subst hc
      have hsub : u' ++ s <:+ '%' :: (u' ++ s) := ⟨['%'], rfl⟩
      simpa [likeMatch] using anySuffix_of_suffix hsub ih
    · simp [likeMatch, hc, ih]

theorem likeMatch_slash_percent {c : Char} (s : List Char)
    (h : likeFold '/' = likeFold c) :
    likeMatch ['/', '%'] (c :: s) = true := by
  have h2 : ('/' : Char) ≠ '%' := by decide
  simp [likeMatch, h2, h, anySuffix_isEmpty]

/-- Inversion for a `%`-free pattern prefix followed by `/%`: a matching
text splits into a block as long as the prefix, a separator-like character
(one that case-folds like `/`, i.e. `/` itself) and a remainder. -/
theorem likeMatch_split {q : List Char} (s : List Char)
    (hq : '%' ∉ q) (h : likeMatch (q ++ ['/', '%']) s = true) :
    ∃ s₁ c s₂, s = s₁ ++ c :: s₂ ∧ s₁.length = q.length ∧
      likeFold '/' = likeFold c := by
  induction q generalizing s with
  | nil =>
    have h2 : ('/' : Char) ≠ '%' := by decide
    cases s with
    | nil => simp [likeMatch, h2] at h
    | cons c s' =>
      simp only [List.nil_append, likeMatch, h2, if_neg, if_false] at h
      rw [Bool.and_eq_true] at h
      have h4 : (likeFold '/' == likeFold c) = true := by
        simpa using h.1
      exact ⟨[], c, s', rfl, rfl, eq_of_beq h4⟩
  | cons a q' ih =>
    have ha : a ≠ '%' := fun hh => hq (hh ▸ List.mem_cons_self a q')
    have hq' : '%' ∉ q' := fun hh => hq (List.mem_cons_of_mem a hh)
    cases s with
    | nil => simp [likeMatch, ha] at h
    | cons d s' =>
      simp only [List.cons_append, likeMatch, ha, if_neg, if_false] at h
      rw [Bool.and_eq_true] at h
      obtain ⟨s₁, c, s₂, hs, hlen, hc⟩ := ih s' hq' h.2
      exact ⟨d :: s₁, c, s₂, by rw [hs]; rfl, by simp [hlen], hc⟩

/-! ## Lemmas about the per-row update loop of the recursive move -/

/-- The cumulative effect of the batch of per-id `UPDATE`s on one row. -/
def applyUpds (nc : HistoryEntry → String) (ms : List HistoryEntry)
    (r : HistoryEntry) : HistoryEntry :=
  ms.foldl
    (fun cur m => if cur.id = m.id then { cur with cwd := nc m } else cur) r

theorem foldl_updateCwdById_eq_map (nc : HistoryEntry → String)
    (ms : List HistoryEntry) :
    ∀ db : List HistoryEntry,
      ms.foldl (fun acc m => updateCwdById acc (nc m) m.id) db
        = db.map (applyUpds nc ms) := by
  induction ms with
  | nil =>
    intro db
    rw [show applyUpds nc [] = id from rfl, List.map_id]
    rfl
  | cons m ms ih =>
    intro db
    rw [List.foldl_cons, ih, updateCwdById, List.map_map]
    exact List.map_congr_left fun a _ => rfl

theorem applyUpds_of_forall_ne {nc : HistoryEntry → String}
    {ms : List HistoryEntry} {r : HistoryEntry}
    (h : ∀ m ∈ ms, m.id ≠ r.id) : applyUpds nc ms r = r := by
  induction ms with
  | nil => rfl
  | cons m ms ih =>
    have hne : ¬ r.id = m.id := fun hh =>
      h m (List.mem_cons_self m ms) hh.symm
    show applyUpds nc ms (if r.id = m.id then _ else r) = r
    rw [if_neg hne]
    exact ih fun m' hm' => h m' (List.mem_cons_of_mem _ hm')

theorem applyUpds_found {nc : HistoryEntry → String}
    {l1 l2 : List HistoryEntry} {e : HistoryEntry}
    (h1 : ∀ m ∈ l1, m.id ≠ e.id) (h2 : ∀ m ∈ l2, m.id ≠ e.id) :
    applyUpds nc (l1 ++ e :: l2) e = { e with cwd := nc e } := by
  unfold applyUpds
  rw [List.foldl_append]
  have hA : applyUpds nc l1 e = e := applyUpds_of_forall_ne h1
  rw [show List.foldl _ e l1 = applyUpds nc l1 e from rfl, hA, List.foldl_cons,
    if_pos rfl]
  exact applyUpds_of_forall_ne fun m hm => h2 m hm

theorem eq_of_mem_of_nodup_ids {store : List HistoryEntry}
    (hnd : (store.map HistoryEntry.id).Nodup) {a b : HistoryEntry}
    (ha : a ∈ store) (hb : b ∈ store) (hid : a.id = b.id) : a = b :=
  List.inj_on_of_nodup_map hnd ha hb hid

/-- Zero reported matches means no row satisfies the filter. -/
theorem count_zero_no_match {store : List HistoryEntry} {dir : String}
    {recursive : Bool} (h : countHistory store dir recursive = 0) :
    ∀ e ∈ store, ¬ histMatch recursive dir e = true :=
  List.filter_eq_nil_iff.mp (List.length_eq_zero.mp h)

/-- The effect of a committed `move` on the store, in both modes: each row
matching the query gets the remapped `cwd`, every other row is untouched.
Requires the store's ids to be distinct (they form the table's primary
key), since the recursive branch updates rows by id. -/
theorem moveHistory_eq_map (store : List HistoryEntry) (f t : String)
    (r : Bool) (hnd : (store.map HistoryEntry.id).Nodup) :
    (moveHistory store f t false r).2
      = store.map fun e =>
          if histMatch r f e then { e with cwd := moveNewCwd f t e.cwd }
          else e := by
  have hmapid : ∀ (h0 : ∀ e ∈ store, ¬ histMatch r f e = true),
      store = store.map fun e =>
        if histMatch r f e then { e with cwd := moveNewCwd f t e.cwd }
        else e := by
    intro h0
    have heq : store.map (fun e =>
        if histMatch r f e then { e with cwd := moveNewCwd f t e.cwd }
        else e) = store.map fun e => e :=
      List.map_congr_left fun e he => if_neg (h0 e he)
    rw [heq]
    simp
  cases r with
  | false =>
    by_cases hc : countHistory store f false = 0
    · simp only [moveHistory, hc, if_pos, if_true, if_false]
      simpa using hmapid (count_zero_no_match hc)
    · simp only [moveHistory, hc, if_neg, if_false, Bool.false_eq_true]
      exact List.map_congr_left fun e he => by
        by_cases hm : histMatch false f e = true
        · have hm' := hm
          rw [histMatch, Bool.and_eq_true] at hm'
          have hcwd : e.cwd = f := by simpa [dirMatch] using hm'.2
          simp [hm, moveNewCwd, hcwd]
        · simp [hm]
  | true =>
    by_cases hc : countHistory store f true = 0
    · simp only [moveHistory, hc, if_pos, if_true, if_false]
      simpa using hmapid (count_zero_no_match hc)
    · simp only [moveHistory, hc, if_neg, if_false, Bool.false_eq_true]
      rw [foldl_updateCwdById_eq_map]
      refine List.map_congr_left fun e he => ?_
      set entries := store.filter (histMatch true f) with hent
      have hndent : (entries.map HistoryEntry.id).Nodup :=
        List.Nodup.sublist
          (List.Sublist.map HistoryEntry.id (List.filter_sublist store)) hnd
      by_cases hm : histMatch true f e = true
      · have hein : e ∈ entries := List.mem_filter.mpr ⟨he, hm⟩
        obtain ⟨l1, l2, hsplit⟩ := List.append_of_mem hein
        have hndids : ((l1 ++ e :: l2).map HistoryEntry.id).Nodup := by
          rw [← hsplit]; exact hndent
        rw [List.map_append, List.map_cons, List.nodup_append] at hndids
        have h1 : ∀ m ∈ l1, m.id ≠ e.id := by
          intro m hm1 heq
          exact hndids.2.2 (List.mem_map_of_mem _ hm1)
            (by rw [heq]; exact List.mem_cons_self _ _)
        have h2 : ∀ m ∈ l2, m.id ≠ e.id := by
          intro m hm2 heq
          exact (List.nodup_cons.mp hndids.2.1).1
            (by rw [← heq]; exact List.mem_map_of_mem _ hm2)
        rw [hsplit, applyUpds_found h1 h2, if_pos hm]
      · have hnot : ∀ m ∈ entries, m.id ≠ e.id := by
          intro m hmem heq
          have hms : m ∈ store := (List.mem_filter.mp hmem).1
          have : m = e := eq_of_mem_of_nodup_ids hnd hms he heq
          exact hm (this ▸ (List.mem_filter.mp hmem).2)
        rw [applyUpds_of_forall_ne hnot, if_neg hm]

/-! ## Lemmas about the copy loop -/

theorem copyLoop_length_prefix (f t : String) (rec : Bool)
    (fresh : Nat → String) :
    ∀ (l : List HistoryEntry) (i : Nat) (store : List HistoryEntry),
      store <+: (copyLoop f t rec fresh i store l).2 ∧
        (copyLoop f t rec fresh i store l).2.length
          = store.length + (copyLoop f t rec fresh i store l).1 := by
  intro l
  induction l with
  | nil => intro i store; exact ⟨List.prefix_refl _, by simp [copyLoop]⟩
  | cons e rest ih =>
    intro i store
    by_cases hok : insertOk store (fresh i) = true
    · have hstep : copyLoop f t rec fresh i store (e :: rest)
          = ((copyLoop f t rec fresh (i + 1)
              (store ++ [mkCopy e (fresh i) (copyNewCwd rec f t e.cwd)])
              rest).1 + 1,
             (copyLoop f t rec fresh (i + 1)
              (store ++ [mkCopy e (fresh i) (copyNewCwd rec f t e.cwd)])
              rest).2) := by
        simp only [copyLoop,
          show (mkCopy e (fresh i) (copyNewCwd rec f t e.cwd)).id = fresh i
            from rfl, hok, if_true]
      obtain ⟨hpre, hlen⟩ := ih (i + 1)
        (store ++ [mkCopy e (fresh i) (copyNewCwd rec f t e.cwd)])
      rw [hstep]
      refine ⟨(List.prefix_append store _).trans hpre, ?_⟩
      rw [hlen]
      simp only [List.length_append, List.length_cons, List.length_nil]
      omega
    · have hstep : copyLoop f t rec fresh i store (e :: rest)
          = copyLoop f t rec fresh (i + 1) store rest := by
        simp only [copyLoop,
          show (mkCopy e (fresh i) (copyNewCwd rec f t e.cwd)).id = fresh i
            from rfl, hok, if_false]
        simp [hok]
      rw [hstep]
      exact ih (i + 1) store

theorem copyMade_length (f t : String) (rec : Bool) (fresh : Nat → String) :
    ∀ (l : List HistoryEntry) (i : Nat),
      (copyMade f t rec fresh i l).length = l.length := by
  intro l
  induction l with
  | nil => intro i; rfl
  | cons e rest ih => intro i; simp [copyMade, ih]

theorem copyMade_mem {f t : String} {rec : Bool} {fresh : Nat → String} :
    ∀ {l : List HistoryEntry} {i : Nat} {x : HistoryEntry},
      x ∈ copyMade f t rec fresh i l →
      ∃ j e, e ∈ l ∧ i ≤ j ∧ j < i + l.length ∧
        x = mkCopy e (fresh j) (copyNewCwd rec f t e.cwd) := by
  intro l
  induction l with
  | nil => intro i x hx; simp [copyMade] at hx
  | cons e rest ih =>
    intro i x hx
    rw [copyMade] at hx
    rcases List.mem_cons.mp hx with h | h
    · exact ⟨i, e, List.mem_cons_self _ _, le_refl i,
        by simp only [List.length_cons]; omega, h⟩
    · obtain ⟨j, e', he', hj1, hj2, hx'⟩ := ih h
      exact ⟨j, e', List.mem_cons_of_mem _ he', by omega,
        by simp only [List.length_cons]; omega, hx'⟩

theorem copyLoop_all_fresh (f t : String) (rec : Bool)
    (fresh : Nat → String) :
    ∀ (l : List HistoryEntry) (i : Nat) (store : List HistoryEntry),
      (∀ j, i ≤ j → j < i + l.length → ∀ e ∈ store, fresh j ≠ e.id) →
      (∀ j k, i ≤ j → j < i + l.length → i ≤ k → k < i + l.length →
        j ≠ k → fresh j ≠ fresh k) →
      copyLoop f t rec fresh i store l
        = (l.length, store ++ copyMade f t rec fresh i l) := by
  intro l
  induction l with
  | nil => intro i store _ _; simp [copyLoop, copyMade]
  | cons e rest ih =>
    intro i store hid hpair
    have hbound : i < i + (e :: rest).length := by
      simp only [List.length_cons]; omega
    have hany : (store.any fun r => decide (r.id = fresh i)) = false := by
      rw [List.any_eq_false]
      intro r hr
      simp only [decide_eq_true_eq]
      exact fun hh => hid i (le_refl i) hbound r hr hh.symm
    have hok : insertOk store (fresh i) = true := by
      simp [insertOk, hany]
    have hstep : copyLoop f t rec fresh i store (e :: rest)
        = ((copyLoop f t rec fresh (i + 1)
            (store ++ [mkCopy e (fresh i) (copyNewCwd rec f t e.cwd)])
            rest).1 + 1,
           (copyLoop f t rec fresh (i + 1)
            (store ++ [mkCopy e (fresh i) (copyNewCwd rec f t e.cwd)])
            rest).2) := by
      simp only [copyLoop,
        show (mkCopy e (fresh i) (copyNewCwd rec f t e.cwd)).id = fresh i
          from rfl, hok, if_true]
    have hid' : ∀ j, i + 1 ≤ j → j < (i + 1) + rest.length →
        ∀ x ∈ store ++ [mkCopy e (fresh i) (copyNewCwd rec f t e.cwd)],
          fresh j ≠ x.id := by
      intro j hj1 hj2 x hx
      rcases List.mem_append.mp hx with h | h
      · exact hid j (by omega) (by simp only [List.length_cons]; omega) x h
      · have hx1 : x = mkCopy e (fresh i) (copyNewCwd rec f t e.cwd) := by
          simpa using h
        rw [hx1, show (mkCopy e (fresh i) (copyNewCwd rec f t e.cwd)).id
          = fresh i from rfl]
        exact hpair j i (by omega) (by simp only [List.length_cons]; omega)
          (le_refl i) hbound (by omega)
    have hpair' : ∀ j k, i + 1 ≤ j → j < (i + 1) + rest.length →
        i + 1 ≤ k → k < (i + 1) + rest.length → j ≠ k →
        fresh j ≠ fresh k := by
      intro j k hj1 hj2 hk1 hk2 hjk
      exact hpair j k (by omega) (by simp only [List.length_cons]; omega)
        (by omega) (by simp only [List.length_cons]; omega) hjk
    rw [hstep, ih (i + 1) _ hid' hpair']
    simp only [List.length_cons, copyMade, List.append_assoc,
      List.singleton_append]

/-- A committed `copy` whose generated ids are genuinely fresh inserts one
new row per matching entry (no INSERT fails) and reports the match count. -/
theorem copyHistory_fresh_eq (store : List HistoryEntry) (f t : String)
    (rec : Bool) (fresh : Nat → String)
    (hfresh : FreshFor fresh store (countHistory store f rec)) :
    copyHistory store f t false rec fresh
      = ((store.filter (histMatch rec f)).length,
          store ++ copyMade f t rec fresh 0 (store.filter (histMatch rec f))) := by
  by_cases hemp : (store.filter (histMatch rec f)).isEmpty = true
  · have hnil : store.filter (histMatch rec f) = [] :=
      List.isEmpty_iff.mp hemp
    simp [copyHistory, hemp, hnil, copyMade]
  · have hn : countHistory store f rec = (store.filter (histMatch rec f)).length :=
      rfl
    have h1 : ∀ j, 0 ≤ j → j < 0 + (store.filter (histMatch rec f)).length →
        ∀ e ∈ store, fresh j ≠ e.id := by
      intro j _ hj e he
      exact hfresh.1 j (by rw [hn]; omega) e he
    have h2 : ∀ j k, 0 ≤ j → j < 0 + (store.filter (histMatch rec f)).length →
        0 ≤ k → k < 0 + (store.filter (histMatch rec f)).length →
        j ≠ k → fresh j ≠ fresh k := by
      intro j k _ hj _ hk hjk
      exact hfresh.2 j (by rw [hn]; omega) k (by rw [hn]; omega) hjk
    rw [copyHistory]
    simp only [hemp, if_false, Bool.false_eq_true]
    exact copyLoop_all_fresh f t rec fresh _ 0 store h1 h2

/-! ## Lemmas about the indexer scan and sort -/

/-- A file the loop skips (node_modules path, unreadable, or missing/falsy
front matter) contributes nothing: the scan behaves as if it were absent. -/
theorem scanToolsDirectory_skip {rootDir : String} {bunLock : String → Bool}
    {f : ReadmeFile}
    (h : strIncludes f.path "node_modules" = true ∨ f.readable = false ∨
      (truthy f.fmName && truthy f.fmPurpose) = false) :
    ∀ l1 l2, scanToolsDirectory rootDir bunLock (l1 ++ f :: l2)
      = scanToolsDirectory rootDir bunLock (l1 ++ l2) := by
  intro l1
  induction l1 with
  | nil =>
    intro l2
    simp only [List.nil_append]
    by_cases h1 : strIncludes f.path "node_modules" = true
    · simp [scanToolsDirectory, h1]
    · rcases h with h | h | h
      · exact absurd h h1
      · simp [scanToolsDirectory, h1, h]
      · by_cases h2 : f.readable = true
        · simp [scanToolsDirectory, h1, h2, h]
        · simp [scanToolsDirectory, h1,
            Bool.not_eq_true f.readable ▸ (Bool.eq_false_iff.mpr h2)]
  | cons g l1 ih =>
    intro l2
    simp only [List.cons_append]
    by_cases h1 : strIncludes g.path "node_modules" = true
    · simp [scanToolsDirectory, h1, ih]
    · by_cases h2 : g.readable = true
      · by_cases h3 : (truthy g.fmName && truthy g.fmPurpose) = true
        · simp [scanToolsDirectory, h1, h2, h3, ih]
        · simp [scanToolsDirectory, h1, h2, h3, ih]
      · have h2' : g.readable = false := Bool.eq_false_iff.mpr h2
        simp [scanToolsDirectory, h1, h2', ih]

/-- A `node_modules` path segment is in particular a substring, so
`String.prototype.includes` detects it. -/
theorem strIncludes_of_hasNMSegment {p : String} (h : hasNMSegment p) :
    strIncludes p "node_modules" = true := by
  obtain ⟨a, b, hp, _, _⟩ := h
  rw [strIncludes]
  have hsub : "node_modules".data ++ b <:+ p.data := by
    rw [hp]
    exact ⟨a, (List.append_assoc a _ b).symm⟩
  have hpre : ("node_modules".data).isPrefixOf ("node_modules".data ++ b)
      = true := by
    rw [List.isPrefixOf_iff_prefix]
    exact List.prefix_append _ _
  exact anySuffix_of_suffix hsub hpre

theorem lexLe_total : ∀ a b, (lexLe a b || lexLe b a) = true := by
  intro a
  induction a with
  | nil => intro b; simp [lexLe]
  | cons x as ih =>
    intro b
    cases b with
    | nil => simp [lexLe]
    | cons y bs =>
      by_cases hxy : x = y
      · subst hxy
        simpa [lexLe] using ih bs
      · rcases lt_or_gt_of_ne hxy with h | h
        · simp [lexLe, hxy, h]
        · simp [lexLe, hxy, Ne.symm hxy, h]

theorem lexLe_trans :
    ∀ a b c, lexLe a b = true → lexLe b c = true → lexLe a c = true := by
  intro a
  induction a with
  | nil => intro b c _ _; simp [lexLe]
  | cons x as ih =>
    intro b c hab hbc
    cases b with
    | nil => simp [lexLe] at hab
    | cons y bs =>
      cases c with
      | nil => simp [lexLe] at hbc
      | cons z cs =>
        by_cases hxy : x = y
        · subst hxy
          by_cases hyz : x = z
          · subst hyz
            simp only [lexLe, if_pos rfl] at hab hbc ⊢
            exact ih bs cs hab hbc
          · simp only [lexLe, if_pos rfl] at hab
            simpa [lexLe, hyz] using hbc
        · by_cases hyz : y = z
          · subst hyz
            simpa [lexLe, hxy] using hab
          · have h1 : x < y := by simpa [lexLe, hxy] using hab
            have h2 : y < z := by simpa [lexLe, hyz] using hbc
            have h3 : x < z := lt_trans h1 h2
            simp [lexLe, ne_of_lt h3, h3]

/-! ## String helper lemmas for the remap rule -/

theorem moveNewCwd_self (f t : String) : moveNewCwd f t f = t := by
  simp [moveNewCwd]

theorem data_append_slash (f s : String) :
    (f ++ "/" ++ s).data = f.data ++ ('/' :: s.data) := by
  have hslash : "/".data = ['/'] := rfl
  rw [String.data_append, String.data_append, hslash, List.append_assoc]
  rfl

theorem moveNewCwd_sub (f t s : String) :
    moveNewCwd f t (f ++ "/" ++ s) = t ++ "/" ++ s := by
  have hne : f ++ "/" ++ s ≠ f := by
    intro hh
    have hlen := congrArg (fun x => x.data.length) hh
    simp only [data_append_slash, List.length_append, List.length_cons]
      at hlen
    omega
  rw [moveNewCwd, if_neg hne]
  have hdrop : (strDrop (f ++ "/" ++ s) (strLen f)).data = '/' :: s.data := by
    show ((f ++ "/" ++ s).data).drop (strLen f) = '/' :: s.data
    rw [data_append_slash, strLen]
    exact List.drop_left f.data ('/' :: s.data)
  apply String.ext
  rw [String.data_append, hdrop, data_append_slash]

/-! ## The claims -/

/-- A concrete history row used by closed evaluations. -/
def demoEntry (id cwd : String) : HistoryEntry :=
  { id := id, timestamp := 0, duration := 0, exit := 0, command := "ls",
    cwd := cwd, session := "sess", hostname := "host", deleted_at := none }

/-- C1: the claim states that recursive matching treats every character of
`dir` literally (`cwd = dir` or `cwd` begins with `dir ++ "/"`).  The code
instead matches with the unescaped SQL pattern `dir || '/%'`, so `_` and
`%` inside `dir` act as wildcards and ASCII letters compare
case-insensitively.  Both evaluations contrast the code's count with the
spec's literal-prefix count: a store whose only row has `cwd = "/axb/c"`
is counted for `dir = "/a_b"`, and a row at `"/a/sub"` is counted for
`dir = "/A"`, although neither `cwd` equals the directory or starts with
`dir ++ "/"`. -/
theorem claim_c1_recursive_match_not_literal :
    countHistory [demoEntry "A" "/axb/c"] "/a_b" true = 1 ∧
    specCountHistory [demoEntry "A" "/axb/c"] "/a_b" true = 0 ∧
    countHistory [demoEntry "B" "/a/sub"] "/A" true = 1 ∧
    specCountHistory [demoEntry "B" "/a/sub"] "/A" true = 0 := by
  decide

/-- C2: a committed `move` rewrites exactly the matching rows, giving a
matching row whose `cwd` equals the normalized `from` the destination `to`
verbatim, and any other matching row `to` plus the remainder of its `cwd`
after the length of `from`; in particular `from ++ "/sub"` is remapped to
`to ++ "/sub"` with no trailing-separator ambiguity.  The store's ids are
assumed distinct, as the primary key guarantees. -/
theorem claim_c2_move_remap (store : List HistoryEntry) (f t : String)
    (r : Bool) (hnd : (store.map HistoryEntry.id).Nodup) :
    (moveHistory store f t false r).2
      = store.map (fun e =>
          if histMatch r f e then { e with cwd := moveNewCwd f t e.cwd }
          else e) ∧
    moveNewCwd f t f = t ∧
    (∀ s, moveNewCwd f t (f ++ "/" ++ s) = t ++ "/" ++ s) :=
  ⟨moveHistory_eq_map store f t r hnd, moveNewCwd_self f t,
    fun s => moveNewCwd_sub f t s⟩

theorem claim_c2_move_remap_witness :
    ([demoEntry "A" "/a/x"].map HistoryEntry.id).Nodup ∧
    (moveHistory [demoEntry "A" "/a/x"] "/a" "/b" false true).2
      = [demoEntry "A" "/b/x"] ∧
    moveNewCwd "/a" "/b" "/a" = "/b" ∧
    moveNewCwd "/a" "/b" ("/a" ++ "/" ++ "x") = "/b" ++ "/" ++ "x" := by
  have h := claim_c2_move_remap [demoEntry "A" "/a/x"] "/a" "/b" true
    (by decide)
  refine ⟨by decide, ?_, h.2.1, h.2.2 "x"⟩
  rw [h.1]
  decide

/-- C3: dry-run `move` and `copy` report the count the committed run would
report and leave the store untouched.  For `copy` the count identity holds
whenever the generated ids are genuinely fresh (the guarantee
`randomUUID()` provides); with an id collision the committed run would
insert fewer rows than the dry run reports. -/
theorem claim_c3_dry_run (store : List HistoryEntry) (f t : String)
    (r : Bool) (fresh : Nat → String) :
    (moveHistory store f t true r).2 = store ∧
    (moveHistory store f t true r).1 = (moveHistory store f t false r).1 ∧
    (copyHistory store f t true r fresh).2 = store ∧
    (FreshFor fresh store (countHistory store f r) →
      (copyHistory store f t true r fresh).1
        = (copyHistory store f t false r fresh).1) := by
  refine ⟨?_, ?_, ?_, ?_⟩
  · cases r with
    | false =>
      by_cases hc : countHistory store f false = 0 <;>
        simp [moveHistory, hc]
    | true =>
      by_cases hc : countHistory store f true = 0 <;>
        simp [moveHistory, hc]
  · cases r with
    | false =>
      by_cases hc : countHistory store f false = 0 <;>
        simp [moveHistory, hc]
    | true =>
      by_cases hc : countHistory store f true = 0
      · simp [moveHistory, hc]
      · have h1 : (moveHistory store f t true true).1
            = countHistory store f true := by
          simp [moveHistory, hc]
        have h2 : (moveHistory store f t false true).1
            = (store.filter (histMatch true f)).length := by
          simp [moveHistory, hc]
        rw [h1, h2]
        rfl
  · by_cases hemp : (store.filter (histMatch r f)).isEmpty = true <;>
      simp [copyHistory, hemp]
  · intro hfresh
    rw [copyHistory_fresh_eq store f t r fresh hfresh]
    by_cases hemp : (store.filter (histMatch r f)).isEmpty = true
    · have hnil : store.filter (histMatch r f) = [] :=
        List.isEmpty_iff.mp hemp
      simp [copyHistory, hemp, hnil]
    · simp [copyHistory, hemp]

theorem claim_c3_dry_run_witness :
    FreshFor (fun _ => "N") [demoEntry "A" "/a"]
      (countHistory [demoEntry "A" "/a"] "/a" false) ∧
    (copyHistory [demoEntry "A" "/a"] "/a" "/b" true false (fun _ => "N")).1
      = (copyHistory [demoEntry "A" "/a"] "/a" "/b" false false
          (fun _ => "N")).1 := by
  have hf : FreshFor (fun _ => "N") [demoEntry "A" "/a"]
      (countHistory [demoEntry "A" "/a"] "/a" false) := by
    constructor
    · decide
    · decide
  exact ⟨hf,
    (claim_c3_dry_run [demoEntry "A" "/a"] "/a" "/b" false
      (fun _ => "N")).2.2.2 hf⟩

/-- When the source directory contains no `%` wildcard, the `cwd` a copy
inserts matches the destination directory's own query predicate. -/
theorem dirMatch_copyNewCwd {rec : Bool} {f t cwd : String}
    (hpct : '%' ∉ f.data) (hm : dirMatch rec f cwd = true) :
    dirMatch rec t (copyNewCwd rec f t cwd) = true := by
  cases rec with
  | false => simp [copyNewCwd, dirMatch]
  | true =>
    by_cases hcf : cwd = f
    · simp [copyNewCwd, hcf, dirMatch]
    · have hlike : likeMatch (f.data ++ ['/', '%']) cwd.data = true := by
        rw [dirMatch, if_pos rfl, Bool.or_eq_true] at hm
        rcases hm with h | h
        · exact absurd (of_decide_eq_true h) hcf
        · exact h
      obtain ⟨s₁, c, s₂, hsplit, hlen, hfold⟩ :=
        likeMatch_split cwd.data hpct hlike
      have hdrop : (strDrop cwd (strLen f)).data = c :: s₂ := by
        show cwd.data.drop (strLen f) = c :: s₂
        rw [hsplit, strLen, ← hlen]
        exact List.drop_left s₁ (c :: s₂)
      have hcwdval : copyNewCwd true f t cwd = t ++ strDrop cwd (strLen f) := by
        simp [copyNewCwd, hcf]
      rw [hcwdval, dirMatch, if_pos rfl, Bool.or_eq_true]
      right
      rw [String.data_append, hdrop]
      exact likeMatch_prepend t.data (likeMatch_slash_percent s₂ hfold)

/-- C4, counterexample: the claim quantifies over every destination and
asserts `count(D)` unchanged and `count(D2)` increased by the number
copied.  (i) Copying a directory onto itself (`D2 = D`) duplicates its
rows, so `count(D)` grows from 1 to 2.  (ii) With a `%` in the source
directory, a recursively copied row's remapped `cwd` (`"/tb/c"`) does not
land under the destination, so `count(D2)` stays 0 although 1 entry was
copied. -/
theorem claim_c4_counterexample :
    countHistory [demoEntry "A" "/a"] "/a" false = 1 ∧
    (copyHistory [demoEntry "A" "/a"] "/a" "/a" false false
      (fun _ => "B")).1 = 1 ∧
    countHistory (copyHistory [demoEntry "A" "/a"] "/a" "/a" false false
      (fun _ => "B")).2 "/a" false = 2 ∧
    (copyHistory [demoEntry "C" "/aXYb/c"] "/a%b" "/t" false true
      (fun _ => "D")).1 = 1 ∧
    countHistory [demoEntry "C" "/aXYb/c"] "/t" true = 0 ∧
    countHistory (copyHistory [demoEntry "C" "/aXYb/c"] "/a%b" "/t" false
      true (fun _ => "D")).2 "/t" true = 0 := by
  decide

/-- C4, amended: a committed `copy` with genuinely fresh ids never removes
or mutates an existing record — the prior rows survive verbatim as a
prefix and the copies are appended.  `count(D2)` increases by exactly the
reported number of copies provided the source directory contains no SQL
`%` wildcard, and `count(D)` is unchanged provided no remapped destination
path falls back under `D`'s own predicate (in particular whenever
`D2 ≠ D` in non-recursive mode).  Each inserted record carries a fresh id
distinct from its source's, and timestamp, duration, exit, command,
session, hostname and deleted_at identical to its source. -/
theorem claim_c4_amended (store : List HistoryEntry) (f t : String)
    (rec : Bool) (fresh : Nat → String)
    (hfresh : FreshFor fresh store (countHistory store f rec))
    (hpct : '%' ∉ f.data)
    (hback : ∀ e ∈ store, histMatch rec f e = true →
      dirMatch rec f (copyNewCwd rec f t e.cwd) = false) :
    (copyHistory store f t false rec fresh).2
      = store ++ copyMade f t rec fresh 0 (store.filter (histMatch rec f)) ∧
    countHistory (copyHistory store f t false rec fresh).2 f rec
      = countHistory store f rec ∧
    countHistory (copyHistory store f t false rec fresh).2 t rec
      = countHistory store t rec + (copyHistory store f t false rec fresh).1 ∧
    (∀ x ∈ copyMade f t rec fresh 0 (store.filter (histMatch rec f)),
      ∃ e ∈ store, histMatch rec f e = true ∧ x.id ≠ e.id ∧
        x.timestamp = e.timestamp ∧ x.duration = e.duration ∧
        x.exit = e.exit ∧ x.command = e.command ∧ x.session = e.session ∧
        x.hostname = e.hostname ∧ x.deleted_at = e.deleted_at) := by
  have hchar := copyHistory_fresh_eq store f t rec fresh hfresh
  have hmem : ∀ x ∈ copyMade f t rec fresh 0 (store.filter (histMatch rec f)),
      ∃ j e, e ∈ store ∧ histMatch rec f e = true ∧
        j < countHistory store f rec ∧
        x = mkCopy e (fresh j) (copyNewCwd rec f t e.cwd) := by
    intro x hx
    obtain ⟨j, e, he, _, hjlt, hxe⟩ := copyMade_mem hx
    have hef := List.mem_filter.mp he
    exact ⟨j, e, hef.1, hef.2, by simpa [countHistory] using hjlt, hxe⟩
  refine ⟨by rw [hchar], ?_, ?_, ?_⟩
  · rw [hchar]
    show countHistory (store ++ _) f rec = _
    rw [countHistory, List.filter_append, List.length_append]
    have hnil : (copyMade f t rec fresh 0
        (store.filter (histMatch rec f))).filter (histMatch rec f) = [] := by
      rw [List.filter_eq_nil_iff]
      intro x hx
      obtain ⟨j, e, hes, hem, hjlt, hxe⟩ := hmem x hx
      rw [hxe]
      intro hcontra
      rw [histMatch, Bool.and_eq_true] at hcontra
      have h2 := hcontra.2
      rw [show (mkCopy e (fresh j) (copyNewCwd rec f t e.cwd)).cwd
        = copyNewCwd rec f t e.cwd from rfl, hback e hes hem] at h2
      exact Bool.false_ne_true h2
    rw [hnil]
    rfl
  · rw [hchar]
    show countHistory (store ++ _) t rec
      = countHistory store t rec + (store.filter (histMatch rec f)).length
    rw [countHistory, List.filter_append, List.length_append]
    have hall : (copyMade f t rec fresh 0
        (store.filter (histMatch rec f))).filter (histMatch rec t)
        = copyMade f t rec fresh 0 (store.filter (histMatch rec f)) := by
      rw [List.filter_eq_self]
      intro x hx
      obtain ⟨j, e, hes, hem, hjlt, hxe⟩ := hmem x hx
      rw [hxe, histMatch]
      rw [histMatch, Bool.and_eq_true] at hem
      rw [show isLive (mkCopy e (fresh j) (copyNewCwd rec f t e.cwd))
        = isLive e from rfl, hem.1]
      rw [show (mkCopy e (fresh j) (copyNewCwd rec f t e.cwd)).cwd
        = copyNewCwd rec f t e.cwd from rfl]
      rw [dirMatch_copyNewCwd hpct hem.2]
      rfl
    rw [hall, copyMade_length]
    rfl
  · intro x hx
    obtain ⟨j, e, hes, hem, hjlt, hxe⟩ := hmem x hx
    refine ⟨e, hes, hem, ?_, by rw [hxe]; rfl, by rw [hxe]; rfl,
      by rw [hxe]; rfl, by rw [hxe]; rfl, by rw [hxe]; rfl,
      by rw [hxe]; rfl, by rw [hxe]; rfl⟩
    rw [hxe]
    exact hfresh.1 j hjlt e hes

theorem claim_c4_amended_witness :
    FreshFor (fun _ => "N") [demoEntry "A" "/a"]
      (countHistory [demoEntry "A" "/a"] "/a" false) ∧
    '%' ∉ "/a".data ∧
    (∀ e ∈ [demoEntry "A" "/a"], histMatch false "/a" e = true →
      dirMatch false "/a" (copyNewCwd false "/a" "/b" e.cwd) = false) ∧
    (copyHistory [demoEntry "A" "/a"] "/a" "/b" false false
        (fun _ => "N")).2
      = [demoEntry "A" "/a"] ++ copyMade "/a" "/b" false (fun _ => "N") 0
          ([demoEntry "A" "/a"].filter (histMatch false "/a")) ∧
    countHistory (copyHistory [demoEntry "A" "/a"] "/a" "/b" false false
      (fun _ => "N")).2 "/a" false
      = countHistory [demoEntry "A" "/a"] "/a" false ∧
    countHistory (copyHistory [demoEntry "A" "/a"] "/a" "/b" false false
      (fun _ => "N")).2 "/b" false
      = countHistory [demoEntry "A" "/a"] "/b" false
        + (copyHistory [demoEntry "A" "/a"] "/a" "/b" false false
            (fun _ => "N")).1 ∧
    (∀ x ∈ copyMade "/a" "/b" false (fun _ => "N") 0
        ([demoEntry "A" "/a"].filter (histMatch false "/a")),
      ∃ e ∈ [demoEntry "A" "/a"], histMatch false "/a" e = true ∧
        x.id ≠ e.id ∧ x.timestamp = e.timestamp ∧ x.duration = e.duration ∧
        x.exit = e.exit ∧ x.command = e.command ∧ x.session = e.session ∧
        x.hostname = e.hostname ∧ x.deleted_at = e.deleted_at) := by
  have hf : FreshFor (fun _ => "N") [demoEntry "A" "/a"]
      (countHistory [demoEntry "A" "/a"] "/a" false) := by
    constructor
    · decide
    · decide
  have h := claim_c4_amended [demoEntry "A" "/a"] "/a" "/b" false
    (fun _ => "N") hf (by decide) (by decide)
  exact ⟨hf, by decide, by decide, h.1, h.2.1, h.2.2.1, h.2.2.2⟩

/-- C5, counterexample: the claim quantifies over every `from` and `to`.
Moving a directory onto itself is a successful non-dry-run move (it
reports 1 row moved), yet matching the original `from` afterwards still
yields that row, not zero. -/
theorem claim_c5_counterexample :
    (moveHistory [demoEntry "A" "/a"] "/a" "/a" false false).1 = 1 ∧
    countHistory (moveHistory [demoEntry "A" "/a"] "/a" "/a" false
      false).2 "/a" false = 1 := by
  decide

/-- C5, amended: after a committed `move`, matching the original `from`
with the same flag yields zero records, provided the store's ids are
distinct (the primary key guarantees this) and no remapped destination
path itself satisfies `from`'s predicate — in particular `to ≠ from`, and
in recursive mode `to` not nested under `from`. -/
theorem claim_c5_amended (store : List HistoryEntry) (f t : String)
    (r : Bool) (hnd : (store.map HistoryEntry.id).Nodup)
    (hdest : ∀ e ∈ store, histMatch r f e = true →
      dirMatch r f (moveNewCwd f t e.cwd) = false) :
    countHistory (moveHistory store f t false r).2 f r = 0 := by
  rw [moveHistory_eq_map store f t r hnd, countHistory, List.filter_map,
    List.length_map]
  rw [List.length_eq_zero, List.filter_eq_nil_iff]
  intro e he
  by_cases hm : histMatch r f e = true
  · show ¬ histMatch r f (if histMatch r f e then _ else e) = true
    rw [if_pos hm]
    intro hcontra
    rw [histMatch, Bool.and_eq_true] at hcontra
    have h2 := hcontra.2
    rw [show ({ e with cwd := moveNewCwd f t e.cwd } : HistoryEntry).cwd
      = moveNewCwd f t e.cwd from rfl, hdest e he hm] at h2
    exact Bool.false_ne_true h2
  · show ¬ histMatch r f (if histMatch r f e then _ else e) = true
    rw [if_neg hm]
    exact hm

theorem claim_c5_amended_witness :
    ([demoEntry "A" "/a"].map HistoryEntry.id).Nodup ∧
    (∀ e ∈ [demoEntry "A" "/a"], histMatch false "/a" e = true →
      dirMatch false "/a" (moveNewCwd "/a" "/b" e.cwd) = false) ∧
    countHistory (moveHistory [demoEntry "A" "/a"] "/a" "/b" false
      false).2 "/a" false = 0 :=
  ⟨by decide, by decide,
    claim_c5_amended [demoEntry "A" "/a"] "/a" "/b" false (by decide)
      (by decide)⟩

/-- C6: the count a committed `copy` returns is exactly the number of rows
actually inserted (the final store is the old store plus one row per
success), never the number attempted.  The closed instance demonstrates
that a failed INSERT does not abort the batch: the first generated id
collides with an existing row ("A"), the insertion is skipped, the loop
still inserts the second row, and the reported count is 1. -/
theorem claim_c6_copy_failure_recovery :
    (∀ (store : List HistoryEntry) (f t : String) (rec : Bool)
        (fresh : Nat → String),
      store <+: (copyHistory store f t false rec fresh).2 ∧
      (copyHistory store f t false rec fresh).2.length
        = store.length + (copyHistory store f t false rec fresh).1) ∧
    (copyHistory [demoEntry "A" "/a", demoEntry "B" "/a"] "/a" "/b" false
      false (fun i => if i = 0 then "A" else "C")).1 = 1 ∧
    (copyHistory [demoEntry "A" "/a", demoEntry "B" "/a"] "/a" "/b" false
      false (fun i => if i = 0 then "A" else "C")).2
      = [demoEntry "A" "/a", demoEntry "B" "/a",
         { demoEntry "B" "/a" with id := "C", cwd := "/b" }] := by
  refine ⟨?_, by decide, by decide⟩
  intro store f t rec fresh
  rw [copyHistory]
  by_cases hemp : (store.filter (histMatch rec f)).isEmpty = true
  · simp only [hemp, if_true]
    exact ⟨List.prefix_refl _, by simp⟩
  · simp only [hemp, if_false, Bool.false_eq_true]
    exact copyLoop_length_prefix f t rec fresh _ 0 store

/-- C7: `list` returns the matching non-deleted records ordered newest
`timestamp` first, truncated to at most `limit` entries, using the same
match predicate as `count`; omitting the optional arguments defaults the
limit to 10 (and the recursive flag to false).  The model only reads the
store (the command issues a single SELECT), so no mutation is possible. -/
theorem claim_c7_list_ordered_truncated (store : List HistoryEntry)
    (dir : String) (limit : Nat) (r : Bool) :
    (listHistory store dir limit r).Pairwise
      (fun a b => b.timestamp ≤ a.timestamp) ∧
    (listHistory store dir limit r).length ≤ limit ∧
    (∀ e ∈ listHistory store dir limit r,
      e ∈ store ∧ isLive e = true ∧ dirMatch r dir e.cwd = true) ∧
    listHistory store dir = listHistory store dir 10 false := by
  refine ⟨?_, ?_, ?_, rfl⟩
  · have htrans : ∀ a b c : HistoryEntry,
        decide (b.timestamp ≤ a.timestamp) = true →
        decide (c.timestamp ≤ b.timestamp) = true →
        decide (c.timestamp ≤ a.timestamp) = true := fun a b c hab hbc =>
      decide_eq_true (le_trans (of_decide_eq_true hbc) (of_decide_eq_true hab))
    have htotal : ∀ a b : HistoryEntry,
        (decide (b.timestamp ≤ a.timestamp) ||
          decide (a.timestamp ≤ b.timestamp)) = true := fun a b => by
      rcases le_total b.timestamp a.timestamp with h | h <;> simp [h]
    have hs := @List.sorted_mergeSort HistoryEntry
      (fun a b => decide (b.timestamp ≤ a.timestamp)) htrans htotal
      (store.filter (histMatch r dir))
    have hs' : ((store.filter (histMatch r dir)).mergeSort
        (fun a b => decide (b.timestamp ≤ a.timestamp))).Pairwise
        (fun a b => b.timestamp ≤ a.timestamp) :=
      hs.imp fun h => of_decide_eq_true h
    exact List.Pairwise.sublist (List.take_sublist _ _) hs'
  · show (List.take limit _).length ≤ limit
    rw [List.length_take]
    exact min_le_left _ _
  · intro e he
    have h1 := List.take_subset _ _ he
    have h2 : e ∈ store.filter (histMatch r dir) :=
      ((List.mergeSort_perm _ _).mem_iff).mp h1
    have h3 := List.mem_filter.mp h2
    have h4 := h3.2
    rw [histMatch, Bool.and_eq_true] at h4
    exact ⟨h3.1, h4.1, h4.2⟩

/-- C8: a README whose path contains a `node_modules` segment contributes
no tool entry, whatever its front matter: the scan result is the same as
if the file were not there at all (the loop skips it because a segment is
in particular a substring, which `String.prototype.includes` detects). -/
theorem claim_c8_node_modules_excluded (rootDir : String)
    (bunLock : String → Bool) (l1 l2 : List ReadmeFile) (f : ReadmeFile)
    (h : hasNMSegment f.path) :
    scanToolsDirectory rootDir bunLock (l1 ++ f :: l2)
      = scanToolsDirectory rootDir bunLock (l1 ++ l2) :=
  scanToolsDirectory_skip (Or.inl (strIncludes_of_hasNMSegment h)) l1 l2

theorem claim_c8_node_modules_excluded_witness :
    hasNMSegment "x/node_modules/README.md" ∧
    scanToolsDirectory "r" (fun _ => false)
      [⟨"x/node_modules/README.md", true, some "T", some "P"⟩]
      = scanToolsDirectory "r" (fun _ => false) [] := by
  have hseg : hasNMSegment "x/node_modules/README.md" :=
    ⟨"x/".data, "/README.md".data, by decide, Or.inr (by decide),
      Or.inr (by decide)⟩
  exact ⟨hseg, claim_c8_node_modules_excluded "r" (fun _ => false) [] []
    ⟨"x/node_modules/README.md", true, some "T", some "P"⟩ hseg⟩

/-- C9: the rendered output is the fixed two-column header (`Name`,
`Purpose`) followed by one row per tool, `| [name](link) | purpose |`,
with the rows in an order sorted case-insensitively by name: the emitted
sequence is a permutation of the scanned tools whose lower-cased names
are pairwise in lexicographic order. -/
theorem claim_c9_render_sorted (tools : List Tool) :
    ∃ st : List Tool, st.Perm tools ∧
      st.Pairwise
        (fun a b => lexLe (lowerStr a.name) (lowerStr b.name) = true) ∧
      renderTools tools = tableHeader ++ String.join (st.map renderRow) := by
  refine ⟨tools.mergeSort fun a b => jsNameCompareLe a.name b.name,
    List.mergeSort_perm _ _, ?_, rfl⟩
  exact @List.sorted_mergeSort Tool
    (fun a b => jsNameCompareLe a.name b.name)
    (fun a b c hab hbc => lexLe_trans _ _ _ hab hbc)
    (fun a b => lexLe_total _ _) tools

/-- C10: a front-matter `name` or `purpose` that is present but falsy (the
empty string) disqualifies a README exactly as a missing field does — the
scan output is the one obtained with the file absent; `truthy` rejects
`some ""` and `none` alike, so inclusion requires both fields present and
truthy. -/
theorem claim_c10_falsy_front_matter (rootDir : String)
    (bunLock : String → Bool) (l1 l2 : List ReadmeFile) (f : ReadmeFile)
    (h : truthy f.fmName = false ∨ truthy f.fmPurpose = false) :
    scanToolsDirectory rootDir bunLock (l1 ++ f :: l2)
      = scanToolsDirectory rootDir bunLock (l1 ++ l2) ∧
    truthy (some "") = false ∧ truthy none = false := by
  refine ⟨?_, rfl, rfl⟩
  apply scanToolsDirectory_skip
  right
  right
  rcases h with h | h <;> simp [h]

theorem claim_c10_falsy_front_matter_witness :
    truthy (ReadmeFile.fmName ⟨"t/README.md", true, some "", some "P"⟩)
      = false ∧
    scanToolsDirectory "r" (fun _ => false)
      [⟨"t/README.md", true, some "", some "P"⟩]
      = scanToolsDirectory "r" (fun _ => false) [] := by
  have h := claim_c10_falsy_front_matter "r" (fun _ => false) [] []
    ⟨"t/README.md", true, some "", some "P"⟩ (Or.inl (by decide))
  exact ⟨by decide, h.1⟩

end ToolsRepo
